import Mathlib

/-!
Shallow embedding of the `archiver` program (main.go): link extraction from
markdown, link-ID derivation, the persistent dedup cache, and the per-link
orchestration in `Archiver.processLinksInMarkdownFile` / `Archiver.Archive`.

Strings are modelled as lists of Unicode code points (`List Char`), which is
faithful for every operation the program performs (single-ASCII-character
replacement, character filtering, `[]rune` truncation, newline splitting).
-/

/-- A Go string, viewed as its sequence of code points. -/
abbrev Str := List Char

/-- Code points of a Lean string literal. -/
def str (s : String) : Str := s.data

/-! ## SHA-256 (model of the `crypto/sha256` collaborator)

`getLinkID` calls `sha256.Sum256` on the (always ASCII) normalized link ID, so
the byte sequence hashed equals the code-point sequence. Arithmetic is on `Nat`
with explicit reduction modulo `2^32`. -/

/-- `2^32`, the modulus for 32-bit words. -/
def M32 : Nat := 4294967296

/-- Right-rotation of a 32-bit word by `n` bits. -/
def rotr32 (n x : Nat) : Nat := ((x >>> n) ||| (x <<< (32 - n))) % M32

/-- 32-bit addition. -/
def add32 (a b : Nat) : Nat := (a + b) % M32

/-- SHA-256 small sigma 0. -/
def ssig0 (x : Nat) : Nat := (rotr32 7 x) ^^^ (rotr32 18 x) ^^^ (x >>> 3)

/-- SHA-256 small sigma 1. -/
def ssig1 (x : Nat) : Nat := (rotr32 17 x) ^^^ (rotr32 19 x) ^^^ (x >>> 10)

/-- SHA-256 big sigma 0. -/
def bsig0 (x : Nat) : Nat := (rotr32 2 x) ^^^ (rotr32 13 x) ^^^ (rotr32 22 x)

/-- SHA-256 big sigma 1. -/
def bsig1 (x : Nat) : Nat := (rotr32 6 x) ^^^ (rotr32 11 x) ^^^ (rotr32 25 x)

/-- SHA-256 choice function. -/
def chF (e f g : Nat) : Nat := (e &&& f) ^^^ ((e ^^^ 4294967295) &&& g)

/-- SHA-256 majority function. -/
def majF (a b c : Nat) : Nat := (a &&& b) ^^^ (a &&& c) ^^^ (b &&& c)

/-- The 64 SHA-256 round constants. -/
def sha256K : List Nat :=
  [1116352408, 1899447441, 3049323471, 3921009573, 961987163, 1508970993,
   2453635748, 2870763221, 3624381080, 310598401, 607225278, 1426881987,
   1925078388, 2162078206, 2614888103, 3248222580, 3835390401, 4022224774,
   264347078, 604807628, 770255983, 1249150122, 1555081692, 1996064986,
   2554220882, 2821834349, 2952996808, 3210313671, 3336571891, 3584528711,
   113926993, 338241895, 666307205, 773529912, 1294757372, 1396182291,
   1695183700, 1986661051, 2177026350, 2456956037, 2730485921, 2820302411,
   3259730800, 3345764771, 3516065817, 3600352804, 4094571909, 275423344,
   430227734, 506948616, 659060556, 883997877, 958139571, 1322822218,
   1537002063, 1747873779, 1955562222, 2024104815, 2227730452, 2361852424,
   2428436474, 2756734187, 3204031479, 3329325298]

/-- The SHA-256 initial hash state. -/
def sha256H0 : List Nat :=
  [1779033703, 3144134277, 1013904242, 2773480762, 1359893119, 2600822924, 528734635, 1541459225]

/-- Big-endian 32-bit word from four bytes. -/
def wordOfBytes (a b c d : Nat) : Nat := a * 16777216 + b * 65536 + c * 256 + d

/-- Group a byte list into big-endian 32-bit words. -/
def bytesToWords : List Nat → List Nat
  | a :: b :: c :: d :: rest => wordOfBytes a b c d :: bytesToWords rest
  | _ => []

/-- The four bytes of a 32-bit word, big-endian. -/
def wordToBytes (w : Nat) : List Nat := [w >>> 24 % 256, w >>> 16 % 256, w >>> 8 % 256, w % 256]

/-- Big-endian 64-bit length field of the SHA-256 padding. -/
def lenBytes64 (n : Nat) : List Nat :=
  [n >>> 56 % 256, n >>> 48 % 256, n >>> 40 % 256, n >>> 32 % 256,
   n >>> 24 % 256, n >>> 16 % 256, n >>> 8 % 256, n % 256]

/-- SHA-256 message padding: `0x80`, zeros to 56 mod 64, then the bit length. -/
def sha256Pad (msg : List Nat) : List Nat :=
  let L := msg.length
  msg ++ 128 :: List.replicate ((64 + 56 - (L + 1) % 64) % 64) 0 ++ lenBytes64 (8 * L)

/-- Split padded bytes into 16-word blocks; `fuel` bounds the recursion. -/
def toBlocksFuel : Nat → List Nat → List (List Nat)
  | 0, _ => []
  | _ + 1, [] => []
  | n + 1, bytes => bytesToWords (bytes.take 64) :: toBlocksFuel n (bytes.drop 64)

/-- Extend the 16-word message schedule by `n` further words. -/
def extendW : Nat → List Nat → List Nat
  | 0, w => w
  | n + 1, w =>
    let t := w.length
    let nw := (ssig1 (w.getD (t - 2) 0) + w.getD (t - 7) 0 +
               ssig0 (w.getD (t - 15) 0) + w.getD (t - 16) 0) % M32
    extendW n (w ++ [nw])

/-- One SHA-256 round on the eight-word working state. -/
def sha256Round (st : List Nat) (k w : Nat) : List Nat :=
  match st with
  | [a, b, c, d, e, f, g, h] =>
    let t1 := (h + bsig1 e + chF e f g + k + w) % M32
    let t2 := (bsig0 a + majF a b c) % M32
    [(t1 + t2) % M32, a, b, c, (d + t1) % M32, e, f, g]
  | other => other

/-- Compress one 16-word block into the hash state. -/
def sha256Compress (hs : List Nat) (block : List Nat) : List Nat :=
  let w := extendW 48 block
  let v := (sha256K.zip w).foldl (fun st kw => sha256Round st kw.1 kw.2) hs
  (hs.zip v).map (fun p => add32 p.1 p.2)

/-- SHA-256 digest (32 bytes) of a byte list. -/
def sha256Bytes (msg : List Nat) : List Nat :=
  let padded := sha256Pad msg
  ((toBlocksFuel padded.length padded).foldl sha256Compress sha256H0).map wordToBytes |>.flatten

/-- Lowercase hexadecimal digit, as produced by Go's `%x` formatting. -/
def hexDigit : Nat → Char
  | 0 => '0' | 1 => '1' | 2 => '2' | 3 => '3' | 4 => '4' | 5 => '5' | 6 => '6' | 7 => '7'
  | 8 => '8' | 9 => '9' | 10 => 'a' | 11 => 'b' | 12 => 'c' | 13 => 'd' | 14 => 'e' | 15 => 'f'
  | _ => '0'

/-- Two hex characters of one byte. -/
def byteHex (b : Nat) : Str := [hexDigit (b / 16), hexDigit (b % 16)]

/-- Model of `fmt.Sprintf("%x", sha256.Sum256([]byte(s)))[:8]` for ASCII `s`:
the first 8 hex characters of the SHA-256 digest. -/
def sha256Hex8 (s : Str) : Str :=
  (((sha256Bytes (s.map Char.toNat)).map byteHex).flatten).take 8

/-! ## Link identification (`getLinkID`, main.go:129-161)

`net/url.Parse` plus `u.Host` / `u.RequestURI()` are external collaborators;
they are modelled here for `http(s)://` URLs, which is the only shape the
extractor ever hands to `getLinkID`: parsing fails on ASCII control characters
(Go's `net/url` control-character check), the host extends to the first `/`,
`?` or `#`, and the request URI is the path plus raw query (`/` when the path
is empty, fragment dropped). -/

/-- ASCII control characters, rejected by `net/url.Parse`. -/
def ctlChar (c : Char) : Bool := c.toNat < 32 || c.toNat == 127

/-- The characters `http://`. -/
def httpScheme : Str := ['h', 't', 't', 'p', ':', '/', '/']

/-- The characters `https://`. -/
def httpsScheme : Str := ['h', 't', 't', 'p', 's', ':', '/', '/']

/-- A character that can appear in the host part. -/
def hostChar (c : Char) : Bool := !(c == '/') && !(c == '?') && !(c == '#')

/-- Split scheme-stripped URL text into `u.Host` and `u.RequestURI()`. -/
def splitHostURI (rest : Str) : Str × Str :=
  let host := rest.takeWhile hostChar
  let after := (rest.dropWhile hostChar).takeWhile (fun c => !(c == '#'))
  match after with
  | [] => (host, ['/'])
  | '?' :: q => (host, '/' :: '?' :: q)
  | p => (host, p)

/-- Model of `url.Parse` restricted to the URLs the extractor produces:
`none` is the `MalformedURLError` case. -/
def parseURL (s : Str) : Option (Str × Str) :=
  if s.any ctlChar then none
  else if httpsScheme.isPrefixOf s then some (splitHostURI (s.drop 8))
  else if httpScheme.isPrefixOf s then some (splitHostURI (s.drop 7))
  else none

/-- The allowed character set `[a-zA-Z0-9_?=.-]` of `getLinkID`'s filter. -/
def allowedChar (c : Char) : Bool :=
  ('a' ≤ c && c ≤ 'z') || ('A' ≤ c && c ≤ 'Z') || ('0' ≤ c && c ≤ '9') ||
  c == '_' || c == '?' || c == '=' || c == '.' || c == '-'

/-- `strings.TrimRight(s, "_")`. -/
def trimRightUnderscore (s : Str) : Str :=
  (s.reverse.dropWhile (fun c => c == '_')).reverse

/-- Steps 2-4 of link-ID derivation (main.go:136-147): concatenate host and
request URI, replace `/` with `_` and `?`/`=` with `-`, strip characters
outside the allowed set, trim trailing underscores. This is the normalized
string before truncation. -/
def normalizeLinkID (host uri : Str) : Str :=
  let s := host ++ '_' :: uri
  let s := s.map (fun c => if c == '/' then '_' else c)
  let s := s.map (fun c => if c == '?' then '-' else c)
  let s := s.map (fun c => if c == '=' then '-' else c)
  let s := s.filter allowedChar
  trimRightUnderscore s

/-- Steps 5-7 as the code performs them (main.go:149-158): truncate the
normalized string to 100 code points, then append `_` and the first 8 hex
characters of the SHA-256 of the truncated string. -/
def mkLinkID (host uri : Str) : Str :=
  let n := normalizeLinkID host uri
  let t := if n.length > 100 then n.take 100 else n
  t ++ '_' :: sha256Hex8 t

/-- `getLinkID` (main.go:129-161); `none` models the parse-error return. -/
def getLinkID (link : Str) : Option Str :=
  (parseURL link).map (fun p => mkLinkID p.1 p.2)

/-- The pre-truncation normalized string of a URL (the string from step 4 of
the spec's `Identify` algorithm). -/
def linkNormalForm (link : Str) : Option Str :=
  (parseURL link).map (fun p => normalizeLinkID p.1 p.2)

/-! ## Link extraction (`markdownLinkRegex` / `parseLinksFromMarkdown`)

The regex tells us: one character that is not `!`, then `[`, then one or more
characters that are neither `[` nor `]`, then `]`, then `(`, then the capture
group `https?://` followed by one or more characters that are neither `(` nor
`)`, then `)`. Because each repeated character class excludes the delimiter
that must follow it, the regex is deterministic at every position, so Go's
`FindAllStringSubmatch(s, -1)` is exactly: scan left to right, at each position
try the unique match, on success emit the capture and resume after the match. -/

/-- A character matching `[^][]` (the label class). -/
def labelChar (c : Char) : Bool := !(c == '[') && !(c == ']')

/-- A character matching `[^()]` (the URL class). -/
def urlChar (c : Char) : Bool := !(c == '(') && !(c == ')')

/-- Match `[^][]+]`: a nonempty bracket-free label followed by `]`. -/
def parseLabel (s : Str) : Option (Str × Str) :=
  match s.dropWhile labelChar with
  | ']' :: r =>
    if (s.takeWhile labelChar).isEmpty then none else some (s.takeWhile labelChar, r)
  | _ => none

/-- Match `https?://` (greedy on the optional `s`, as in the regex). -/
def parseScheme (s : Str) : Option (Str × Str) :=
  if httpsScheme.isPrefixOf s then some (httpsScheme, s.drop 8)
  else if httpScheme.isPrefixOf s then some (httpScheme, s.drop 7)
  else none

/-- Match `[^()]+)`: a nonempty parenthesis-free URL tail followed by `)`. -/
def parseUrlRest (s : Str) : Option (Str × Str) :=
  match s.dropWhile urlChar with
  | ')' :: r =>
    if (s.takeWhile urlChar).isEmpty then none else some (s.takeWhile urlChar, r)
  | _ => none

/-- Consume one expected character. -/
def expectChar (c : Char) (s : Str) : Option Str :=
  match s with
  | d :: r => if d == c then some r else none
  | [] => none

/-- Match the part of the regex after the opening `[`; on success, return the
capture group (`https?://[^()]+`) and the text after the match. -/
def matchAfterBracket (rest : Str) : Option (Str × Str) :=
  match parseLabel rest with
  | some (_, r1) =>
    match expectChar '(' r1 with
    | some r2 =>
      match parseScheme r2 with
      | some (sch, r3) =>
        match parseUrlRest r3 with
        | some (u, r4) => some (sch ++ u, r4)
        | none => none
      | none => none
    | none => none
  | none => none

/-- Try to match `markdownLinkRegex` at the start of `s`. -/
def matchMarkdownLink : Str → Option (Str × Str)
  | c :: d :: rest =>
    if c == '!' then none
    else if d == '[' then matchAfterBracket rest
    else none
  | _ => none

/-- Left-to-right non-overlapping scan; `fuel` bounds the recursion and is
always instantiated with the text length, which suffices because a match
consumes at least one character. -/
def findLinksFuel : Nat → Str → List Str
  | 0, _ => []
  | _ + 1, [] => []
  | n + 1, c :: rest =>
    match matchMarkdownLink (c :: rest) with
    | some (u, r) => u :: findLinksFuel n r
    | none => findLinksFuel n rest

/-- All capture groups of `markdownLinkRegex.FindAllStringSubmatch(s, -1)`. -/
def findAllLinks (s : Str) : List Str := findLinksFuel s.length s

/-- `parseLinksFromMarkdown` (main.go:163-169): the links plus the error
value, which the code always returns as `nil` (modelled as `none`). -/
def parseLinksFromMarkdown (s : Str) : List Str × Option String :=
  (findAllLinks s, none)

/-! ## Dedup cache (`initCheckedLinkCache` / `writeCheckedLinkCache`)

The cache is a `map[string]bool`, modelled as a duplicate-free list of keys.
The cache file is read with `io.ReadAll` and split on `"\n"`; it is written
with `os.OpenFile(..., os.O_CREATE|os.O_WRONLY, ...)` — note: without
`O_TRUNC` — followed by one `WriteString` at offset zero, so the new contents
overwrite only a prefix of any longer previous contents. -/

/-- `strings.Split(s, "\n")`: the empty string yields one empty piece. -/
def splitNL : Str → List Str
  | [] => [[]]
  | c :: rest =>
    match splitNL rest with
    | [] => [[]]
    | h :: t => if c == '\n' then [] :: h :: t else (c :: h) :: t

/-- `strings.Join(pieces, "\n")`. -/
def joinNL : List Str → Str
  | [] => []
  | [x] => x
  | x :: xs => x ++ '\n' :: joinNL xs

/-- Add a key to the modelled `map[string]bool` (no duplicates). -/
def addKey (ks : List Str) (k : Str) : List Str :=
  if ks.contains k then ks else ks ++ [k]

/-- Go's byte-lexicographic string order used by `sort.Strings`; on the
ASCII strings involved it agrees with code-point order. -/
def strLe : Str → Str → Bool
  | [], _ => true
  | _ :: _, [] => false
  | a :: as, b :: bs => if a < b then true else if b < a then false else strLe as bs

/-- Insertion into a sorted list. -/
def insertSorted (s : Str) : List Str → List Str
  | [] => [s]
  | t :: ts => if strLe s t then s :: t :: ts else t :: insertSorted s ts

/-- The sorted list of cache keys (`sort.Strings` on the collected keys). -/
def sortStrings (l : List Str) : List Str := l.foldr insertSorted []

/-- `initCheckedLinkCache` (main.go:220-238): the in-memory key set built from
the cache file contents (`""` when the file was missing — `O_CREATE` makes an
empty file — or empty). -/
def initCheckedLinkCache (contents : Str) : List Str :=
  (splitNL contents).foldl addKey []

/-- Writing `new` at offset zero into a file currently holding `old`, without
truncation: bytes of `old` beyond `new`'s length survive. -/
def overwriteFile (old new : Str) : Str := new ++ old.drop new.length

/-- `writeCheckedLinkCache` (main.go:205-218): the cache file contents after
a flush, given the previous contents `old`. The keys are sorted and joined
with newlines, and written without truncating `old`. -/
def writeCheckedLinkCache (checked : List Str) (old : Str) : Str :=
  overwriteFile old (joinNL (sortStrings checked))

/-! ## Orchestration (`processLinksInMarkdownFile` / `Archive`)

State of one run: the in-memory cache, the set of link-ID directories that
exist under the output root, whether the output root itself exists (it always
does after `validateArgs`, but `path.Join(outputDir, "")` stats the root
itself, so it matters for the empty link ID), and the log of URLs passed to
the content fetcher. The fetcher (`readability.FromURL`) is an external
collaborator modelled as a boolean success function; the fetched article body
is opaque and not tracked. The `yaml.Marshal` branch cannot fail for the
`Metadata` struct and is not modelled. -/

/-- The mutable state of one `Archive` run over the filesystem. -/
structure ArchiveState where
  checkedLinks : List Str
  entries : List Str
  outDirExists : Bool
  fetched : List Str
deriving DecidableEq, Repr

/-- `isLinkCheckedBefore` (main.go:240-242). -/
def isLinkCheckedBefore (st : ArchiveState) (linkID : Str) : Bool :=
  st.checkedLinks.contains linkID

/-- `setLinkChecked` (main.go:199-203). -/
def setLinkChecked (st : ArchiveState) (linkID : Str) : ArchiveState :=
  { st with checkedLinks := addKey st.checkedLinks linkID }

/-- `os.Stat(path.Join(outputDir, linkID))` succeeding: for the empty link ID
the joined path is the output root itself. -/
def linkIDExists (st : ArchiveState) (linkID : Str) : Bool :=
  if linkID.isEmpty then st.outDirExists else st.entries.contains linkID

/-- Creating the archive-entry directory and its `index.html` for `linkID`. -/
def addEntry (st : ArchiveState) (linkID : Str) : ArchiveState :=
  if linkID.isEmpty then { st with outDirExists := true }
  else { st with entries := linkID :: st.entries }

/-- The link ID the loop body works with: the `getLinkID` result, or the Go
zero value `""` when `getLinkID` returned an error (which the code only
logs — there is no `continue` in that branch, main.go:71-74). -/
def computeLinkID (link : Str) : Str :=
  match getLinkID link with
  | some i => i
  | none => []

/-- The per-link body of `processLinksInMarkdownFile` (main.go:70-124).
`os.Mkdir` fails — aborting the file, hence the run — iff its target already
exists; the fetched log records the call to `readability.FromURL`. -/
def processLink (fetch : Str → Bool) (st : ArchiveState) (link : Str) :
    Except String ArchiveState :=
  if isLinkCheckedBefore st (computeLinkID link) then .ok st
  else if linkIDExists st (computeLinkID link) then .ok (setLinkChecked st (computeLinkID link))
  else if fetch link then
    if linkIDExists { st with fetched := st.fetched ++ [link] } (computeLinkID link) then
      .error "mkdir: file exists"
    else
      .ok (setLinkChecked (addEntry { st with fetched := st.fetched ++ [link] }
            (computeLinkID link)) (computeLinkID link))
  else .ok (setLinkChecked { st with fetched := st.fetched ++ [link] } (computeLinkID link))

/-- `processLinksInMarkdownFile` on one document's text (main.go:54-127):
extract the links, abort on an extraction error, else process each link. -/
def processLinksInMarkdownFile (fetch : Str → Bool) (st : ArchiveState)
    (doc : Str) : Except String ArchiveState :=
  let parsed := parseLinksFromMarkdown doc
  match parsed.2 with
  | some e => .error e
  | none => parsed.1.foldlM (processLink fetch) st

/-- `Archive` (main.go:171-197): load the cache, process every document, then
flush the cache over the previous file contents. Returns the final state and
the new cache file contents. -/
def Archive (fetch : Str → Bool) (docs : List Str) (cacheFile : Str)
    (entries0 : List Str) (outDir0 : Bool) : Except String (ArchiveState × Str) :=
  match docs.foldlM (processLinksInMarkdownFile fetch)
      (ArchiveState.mk (initCheckedLinkCache cacheFile) entries0 outDir0 []) with
  | .error e => .error e
  | .ok st => .ok (st, writeCheckedLinkCache st.checkedLinks cacheFile)

/-- Two consecutive runs over the same documents starting from cache-file
contents `cacheFile` and an empty output tree: the URLs fetched during the
second run (or `none` if either run aborted). -/
def secondRunFetches (fetch : Str → Bool) (docs : List Str) (cacheFile : Str) :
    Option (List Str) :=
  match Archive fetch docs cacheFile [] true with
  | .error _ => none
  | .ok (st1, file1) =>
    match Archive fetch docs file1 st1.entries st1.outDirExists with
    | .error _ => none
    | .ok (st2, _) => some st2.fetched

/-- The scheme characters captured by `https?://` for each choice of `s?`. -/
def schemeChars (ssl : Bool) : Str := if ssl then httpsScheme else httpScheme

/-- A URL whose normalized form is 114 characters long and ends in `b`. -/
def urlLongB : Str := str "http://example.com/" ++ List.replicate 100 'a' ++ ['b']

/-- A URL whose normalized form is 114 characters long and ends in `c`. -/
def urlLongC : Str := str "http://example.com/" ++ List.replicate 100 'a' ++ ['c']

deriving instance DecidableEq for Except

/-! ## Theorems -/

/-- Sanity check of the SHA-256 model against the FIPS 180 test vector. -/
theorem sha256Hex8_abc : sha256Hex8 (str "abc") = str "ba7816bf" := by decide

/-- Membership in a `contains`-true list, and back. -/
theorem contains_iff_mem_list {l : List Str} {a : Str} : l.contains a = true ↔ a ∈ l := by
  simp [List.contains, List.elem_iff]

/-- `addKey` makes `contains` true for the added key. -/
theorem contains_addKey (l : List Str) (k : Str) : (addKey l k).contains k = true := by
  unfold addKey
  split
  · assumption
  · exact contains_iff_mem_list.mpr (by simp)

/-- Every key of `addKey l k` is `k` or a key of `l`. -/
theorem mem_addKey {l : List Str} {k x : Str} (h : x ∈ addKey l k) : x ∈ l ∨ x = k := by
  unfold addKey at h
  split at h
  · exact Or.inl h
  · rcases List.mem_append.mp h with h' | h'
    · exact Or.inl h'
    · simp at h'; exact Or.inr h'

/-- When `getLinkID` succeeds, the loop works with its result. -/
theorem computeLinkID_some {link id : Str} (h : getLinkID link = some id) :
    computeLinkID link = id := by
  unfold computeLinkID; rw [h]

/-- When `getLinkID` fails, the loop works with the zero value `""`. -/
theorem computeLinkID_none {link : Str} (h : getLinkID link = none) :
    computeLinkID link = [] := by
  unfold computeLinkID; rw [h]

/-- The final link ID is never the empty string: it always ends in `_` plus
the hash fragment. -/
theorem mkLinkID_ne_nil (host uri : Str) : mkLinkID host uri ≠ [] := by
  unfold mkLinkID
  exact List.append_ne_nil_of_right_ne_nil _ (by simp)

set_option maxRecDepth 10000 in
/-- C1: the claim says the 8-hex-character hash suffix is computed over the
pre-truncation normalized string, so URLs whose normalized forms differ but
whose 100-code-point truncations coincide get different LinkIDs. The code
(main.go:149-158) truncates FIRST and hashes the truncated string, so the two
URLs below — whose normalized forms differ only at position 114 — receive the
SAME LinkID while their pre-truncation normalized strings differ. -/
theorem claim_C1 :
    getLinkID urlLongB = getLinkID urlLongC ∧
    linkNormalForm urlLongB ≠ linkNormalForm urlLongC := by
  decide

set_option maxRecDepth 10000 in
/-- C2: the claim says a second run over unchanged inputs performs zero
fetches. Counterexample by evaluation of the embedded `Archive`: the prior
cache file `"aa\n" * 9 ++ "aa"` (duplicate entries) is longer than the first
run's flushed contents; since `writeCheckedLinkCache` opens the file without
truncation (no `O_TRUNC`, main.go:206), the stale tail bytes corrupt the line
of the fetch-failed link's ID, and the second run fetches that link again. -/
theorem claim_C2 :
    secondRunFetches (fun _ => false) [str " [a](http://zz.com/q)"]
      (str "aa\naa\naa\naa\naa\naa\naa\naa\naa\naa") = some [str "http://zz.com/q"] := by
  decide

/-- C5: the claim says `Flush` fully overwrites the cache file, leaving no
residual bytes of a longer prior file. The code opens with
`O_CREATE|O_WRONLY` but not `O_TRUNC` (main.go:206) and writes at offset 0,
so flushing the key set `{"bb"}` over prior contents `"aaaa\naaaa"` leaves
`"bbaa\naaaa"` — residual bytes survive and the file is not exactly the
sorted, newline-delimited key set. -/
theorem claim_C5 :
    writeCheckedLinkCache [str "bb"] (str "aaaa\naaaa") = str "bbaa\naaaa" ∧
    writeCheckedLinkCache [str "bb"] (str "aaaa\naaaa") ≠ joinNL (sortStrings [str "bb"]) := by
  decide

/-- C6: with no prior cache storage (`O_CREATE` yields an empty file) or an
empty cache file, the loaded contents are `""`, `strings.Split` yields the
single empty piece, and the resulting key set is `{""}` — which contains no
LinkID, since every `getLinkID` result is nonempty. So `Contains(id)` is
false for every LinkID right after initialization. -/
theorem claim_C6 (link id : Str) (h : getLinkID link = some id) :
    initCheckedLinkCache (str "") = [str ""] ∧
    (initCheckedLinkCache (str "")).contains id = false := by
  refine ⟨by decide, ?_⟩
  have hne : id ≠ [] := by
    have h' := h
    simp only [getLinkID, Option.map_eq_some'] at h'
    obtain ⟨p, _, hid⟩ := h'
    rw [← hid]
    exact mkLinkID_ne_nil p.1 p.2
  have : initCheckedLinkCache (str "") = [[]] := by decide
  rw [this]
  cases hc : ([[]] : List Str).contains id with
  | false => rfl
  | true =>
    exact absurd (by simpa using contains_iff_mem_list.mp hc) hne

/-- Witness for C6 at the concrete URL `http://c.net/z`. -/
theorem claim_C6_witness :
    initCheckedLinkCache (str "") = [str ""] ∧
    (initCheckedLinkCache (str "")).contains (str "c.net__z_621efd1f") = false :=
  claim_C6 (str "http://c.net/z") (str "c.net__z_621efd1f") (by decide)

/-- C3: a link whose ID is not in the in-memory cache but whose archive entry
exists on disk is marked checked and skipped — the fetcher is not invoked, no
entry is created, and the cache now contains the ID (main.go:80-87). Hence a
run with a missing or empty cache file does not re-fetch already-archived
links and repairs the cache. -/
theorem claim_C3 (fetch : Str → Bool) (st : ArchiveState) (link id : Str)
    (hid : getLinkID link = some id)
    (hc : isLinkCheckedBefore st id = false)
    (hd : linkIDExists st id = true) :
    processLink fetch st link = .ok (setLinkChecked st id) ∧
    (setLinkChecked st id).fetched = st.fetched ∧
    (setLinkChecked st id).entries = st.entries ∧
    isLinkCheckedBefore (setLinkChecked st id) id = true := by
  refine ⟨?_, rfl, rfl, ?_⟩
  · unfold processLink
    rw [computeLinkID_some hid]
    simp [hc, hd]
  · unfold isLinkCheckedBefore setLinkChecked
    exact contains_addKey st.checkedLinks id

/-- Witness for C3: the entry for `http://a.com/x` is on disk, the cache is
empty, and a fetcher that would succeed is never consulted. -/
theorem claim_C3_witness :
    processLink (fun _ => true)
        (ArchiveState.mk [] [str "a.com__x_6152e5b5"] true []) (str "http://a.com/x") =
      .ok (setLinkChecked (ArchiveState.mk [] [str "a.com__x_6152e5b5"] true [])
            (str "a.com__x_6152e5b5")) ∧
    (setLinkChecked (ArchiveState.mk [] [str "a.com__x_6152e5b5"] true [])
        (str "a.com__x_6152e5b5")).fetched = (ArchiveState.mk [] [str "a.com__x_6152e5b5"] true []).fetched ∧
    (setLinkChecked (ArchiveState.mk [] [str "a.com__x_6152e5b5"] true [])
        (str "a.com__x_6152e5b5")).entries = (ArchiveState.mk [] [str "a.com__x_6152e5b5"] true []).entries ∧
    isLinkCheckedBefore (setLinkChecked (ArchiveState.mk [] [str "a.com__x_6152e5b5"] true [])
        (str "a.com__x_6152e5b5")) (str "a.com__x_6152e5b5") = true :=
  claim_C3 (fun _ => true) (ArchiveState.mk [] [str "a.com__x_6152e5b5"] true [])
    (str "http://a.com/x") (str "a.com__x_6152e5b5") (by decide) (by decide) (by decide)

/-- C4 counterexample: the claim says a link whose URL cannot be parsed is
skipped entirely, with no cache lookup, no disk check and no state change.
In the code the `getLinkID` error is only logged (there is no `continue`,
main.go:71-74), so the zero-value link ID `""` flows on: the cache is
consulted, the disk check stats the output root itself (which exists), and
`""` is marked checked — the state visibly changes. -/
theorem claim_C4_cex :
    getLinkID (str "http://a\u0001b") = none ∧
    processLink (fun _ => true) (ArchiveState.mk [] [] true []) (str "http://a\u0001b") =
      .ok (ArchiveState.mk [[]] [] true []) ∧
    (ArchiveState.mk [[]] [] true [] : ArchiveState).checkedLinks ≠
      (ArchiveState.mk [] [] true [] : ArchiveState).checkedLinks := by
  decide

/-- C4 as amended: for a link whose URL cannot be parsed, the orchestrator
logs the error and carries on with the empty link ID: it performs the cache
lookup and the disk check with `""` (the disk check targets the output root,
which exists after `validateArgs`), marks `""` checked, and skips the fetch
and the write; the run continues with the next link. -/
theorem claim_C4_amended (fetch : Str → Bool) (st : ArchiveState) (link : Str)
    (hmal : getLinkID link = none) (hout : st.outDirExists = true) :
    ∃ st', processLink fetch st link = .ok st' ∧
      st'.entries = st.entries ∧
      st'.fetched = st.fetched ∧
      st'.checkedLinks.contains (str "") = true := by
  unfold processLink
  rw [computeLinkID_none hmal]
  cases hc : isLinkCheckedBefore st [] with
  | true =>
    refine ⟨st, by simp [hc], rfl, rfl, ?_⟩
    exact hc
  | false =>
    have hex : linkIDExists st [] = true := by
      unfold linkIDExists
      simpa using hout
    refine ⟨setLinkChecked st [], by simp [hc, hex], rfl, rfl, ?_⟩
    exact contains_addKey st.checkedLinks []

/-- Witness for the amended C4 at a concrete malformed link and state. -/
theorem claim_C4_amended_witness :
    ∃ st', processLink (fun _ => false)
        (ArchiveState.mk [str "q"] [] true []) (str "http://c\u0002d") = .ok st' ∧
      st'.entries = (ArchiveState.mk [str "q"] [] true [] : ArchiveState).entries ∧
      st'.fetched = (ArchiveState.mk [str "q"] [] true [] : ArchiveState).fetched ∧
      st'.checkedLinks.contains (str "") = true :=
  claim_C4_amended (fun _ => false) (ArchiveState.mk [str "q"] [] true [])
    (str "http://c\u0002d") (by decide) (by decide)

/-- Updating the fetch log does not change what exists on disk. -/
theorem linkIDExists_set_fetched (st : ArchiveState) (f : List Str) (id : Str) :
    linkIDExists { st with fetched := f } id = linkIDExists st id := rfl

/-- Every per-link step succeeds: the only error source, `os.Mkdir`, is
guarded by the immediately preceding disk-existence check. -/
theorem processLink_ok (fetch : Str → Bool) (st : ArchiveState) (link : Str) :
    ∃ st', processLink fetch st link = .ok st' := by
  unfold processLink
  by_cases h1 : isLinkCheckedBefore st (computeLinkID link) = true
  · exact ⟨st, by simp [h1]⟩
  · by_cases h2 : linkIDExists st (computeLinkID link) = true
    · exact ⟨setLinkChecked st (computeLinkID link), by simp [h1, h2]⟩
    · by_cases h3 : fetch link = true
      · refine ⟨setLinkChecked (addEntry { st with fetched := st.fetched ++ [link] }
            (computeLinkID link)) (computeLinkID link), ?_⟩
        rw [if_neg h1, if_neg h2, if_pos h3,
          if_neg (by rw [linkIDExists_set_fetched]; exact h2)]
      · refine ⟨setLinkChecked { st with fetched := st.fetched ++ [link] }
            (computeLinkID link), ?_⟩
        rw [if_neg h1, if_neg h2, if_neg h3]

/-- Folding the per-link step over any link list succeeds. -/
theorem foldlM_processLink_ok (fetch : Str → Bool) (links : List Str) :
    ∀ st : ArchiveState, ∃ st', links.foldlM (processLink fetch) st = .ok st' := by
  induction links with
  | nil => intro st; exact ⟨st, rfl⟩
  | cons l ls ih =>
    intro st
    obtain ⟨st1, h1⟩ := processLink_ok fetch st l
    obtain ⟨st2, h2⟩ := ih st1
    refine ⟨st2, ?_⟩
    rw [List.foldlM_cons, h1]
    exact h2

/-- C10: `parseLinksFromMarkdown` always returns a `nil` error (its Go body
literally ends in `return links, nil`), so the per-file extraction-error
branch of the orchestrator is unreachable and processing a document's links
always succeeds. -/
theorem claim_C10 (fetch : Str → Bool) (st : ArchiveState) (doc : Str) :
    (parseLinksFromMarkdown doc).2 = none ∧
    ∃ st', processLinksInMarkdownFile fetch st doc = .ok st' := by
  refine ⟨rfl, ?_⟩
  exact foldlM_processLink_ok fetch (findAllLinks doc) st

/-- Hex digits are never a newline. -/
theorem hexDigit_ne_newline (n : Nat) : hexDigit n ≠ '\n' := by
  unfold hexDigit
  split <;> decide

/-- Trimming trailing underscores only removes characters. -/
theorem mem_of_mem_trimRightUnderscore {x : Char} {l : Str}
    (h : x ∈ trimRightUnderscore l) : x ∈ l := by
  unfold trimRightUnderscore at h
  rw [List.mem_reverse] at h
  exact List.mem_reverse.mp ((List.dropWhile_sublist _).mem h)

/-- Every character of the normalized link ID is in the allowed set. -/
theorem allowedChar_of_mem_normalizeLinkID {x : Char} {host uri : Str}
    (h : x ∈ normalizeLinkID host uri) : allowedChar x = true := by
  unfold normalizeLinkID at h
  exact (List.mem_filter.mp (mem_of_mem_trimRightUnderscore h)).2

/-- The hash fragment contains no newline. -/
theorem newline_not_mem_sha256Hex8 (s : Str) : ('\n' : Char) ∉ sha256Hex8 s := by
  intro h
  unfold sha256Hex8 at h
  have h' := List.mem_of_mem_take h
  obtain ⟨l, hl, hmem⟩ := List.mem_flatten.mp h'
  obtain ⟨b, _, hb⟩ := List.mem_map.mp hl
  rw [← hb] at hmem
  simp only [byteHex, List.mem_cons, List.not_mem_nil, or_false] at hmem
  rcases hmem with h1 | h1
  · exact hexDigit_ne_newline _ h1.symm
  · exact hexDigit_ne_newline _ h1.symm

/-- A successfully derived link ID contains no newline, so it survives the
newline-delimited cache file format. -/
theorem getLinkID_no_newline {link id : Str} (h : getLinkID link = some id) :
    ('\n' : Char) ∉ id := by
  intro hmem
  simp only [getLinkID, Option.map_eq_some'] at h
  obtain ⟨p, _, hid⟩ := h
  rw [← hid] at hmem
  unfold mkLinkID at hmem
  rcases List.mem_append.mp hmem with h1 | h1
  · have hn : ('\n' : Char) ∈ normalizeLinkID p.1 p.2 := by
      by_cases hlen : (normalizeLinkID p.1 p.2).length > 100
      · rw [if_pos hlen] at h1; exact List.mem_of_mem_take h1
      · rw [if_neg hlen] at h1; exact h1
    have := allowedChar_of_mem_normalizeLinkID hn
    simp [allowedChar] at this
  · rw [List.mem_cons] at h1
    rcases h1 with h1 | h1
    · exact absurd h1 (by decide)
    · exact newline_not_mem_sha256Hex8 _ h1

/-- One unfolding step of `splitNL`. -/
theorem splitNL_cons (c : Char) (rest : Str) :
    splitNL (c :: rest) =
      match splitNL rest with
      | [] => [[]]
      | h :: t => if c == '\n' then [] :: h :: t else (c :: h) :: t := by
  rw [splitNL]

/-- `splitNL` never returns the empty list. -/
theorem splitNL_ne_nil (l : Str) : splitNL l ≠ [] := by
  cases l with
  | nil => simp [splitNL]
  | cons c rest =>
    rw [splitNL_cons]
    cases splitNL rest with
    | nil => simp
    | cons a t => by_cases hc : c = '\n' <;> simp [hc]

/-- A newline-free piece splits as itself. -/
theorem splitNL_no_nl {x : Str} (h : ('\n' : Char) ∉ x) : splitNL x = [x] := by
  induction x with
  | nil => rfl
  | cons c rest ih =>
    have hc : ¬(c = '\n') := fun hh => h (hh ▸ List.mem_cons_self c rest)
    have hr : ('\n' : Char) ∉ rest := fun hm => h (List.mem_cons_of_mem c hm)
    rw [splitNL_cons, ih hr]
    simp [hc]

/-- Splitting a newline-free piece glued before `'\n' :: r`. -/
theorem splitNL_append_nl {x r : Str} (h : ('\n' : Char) ∉ x) :
    splitNL (x ++ '\n' :: r) = x :: splitNL r := by
  induction x with
  | nil =>
    show splitNL ('\n' :: r) = [] :: splitNL r
    rw [splitNL_cons]
    cases hs : splitNL r with
    | nil => exact absurd hs (splitNL_ne_nil r)
    | cons a t => simp
  | cons c rest ih =>
    have hc : ¬(c = '\n') := fun hh => h (hh ▸ List.mem_cons_self c rest)
    have hr : ('\n' : Char) ∉ rest := fun hm => h (List.mem_cons_of_mem c hm)
    show splitNL (c :: (rest ++ '\n' :: r)) = (c :: rest) :: splitNL r
    rw [splitNL_cons, ih hr]
    simp [hc]

/-- Round trip: joining newline-free pieces and splitting recovers them. -/
theorem splitNL_joinNL {ps : List Str} (hne : ps ≠ [])
    (h : ∀ p ∈ ps, ('\n' : Char) ∉ p) : splitNL (joinNL ps) = ps := by
  induction ps with
  | nil => exact absurd rfl hne
  | cons p ps' ih =>
    cases ps' with
    | nil => exact splitNL_no_nl (h p (List.mem_cons_self p []))
    | cons q qs =>
      show splitNL (p ++ '\n' :: joinNL (q :: qs)) = p :: q :: qs
      rw [splitNL_append_nl (h p (List.mem_cons_self p _))]
      rw [ih (by simp) (fun x hx => h x (List.mem_cons_of_mem p hx))]

/-- Membership in an insertion is membership in the parts. -/
theorem mem_insertSorted {x s : Str} {l : List Str} :
    x ∈ insertSorted s l ↔ x = s ∨ x ∈ l := by
  induction l with
  | nil => simp [insertSorted]
  | cons t ts ih =>
    unfold insertSorted
    split
    · simp
    · rw [List.mem_cons, ih, List.mem_cons]
      tauto

/-- Sorting preserves membership. -/
theorem mem_sortStrings {x : Str} {l : List Str} : x ∈ sortStrings l ↔ x ∈ l := by
  induction l with
  | nil => simp [sortStrings]
  | cons a l' ih =>
    show x ∈ insertSorted a (sortStrings l') ↔ _
    rw [mem_insertSorted, ih]
    exact (List.mem_cons).symm

/-- `addKey` preserves existing keys. -/
theorem contains_addKey_of_contains {l : List Str} {k x : Str}
    (h : l.contains x = true) : (addKey l k).contains x = true := by
  unfold addKey
  split
  · exact h
  · exact contains_iff_mem_list.mpr (List.mem_append.mpr (Or.inl (contains_iff_mem_list.mp h)))

/-- Folding `addKey` over pieces retains both the pieces and prior keys. -/
theorem contains_foldl_addKey (ps : List Str) :
    ∀ (init : List Str) (x : Str), x ∈ ps ∨ init.contains x = true →
      (ps.foldl addKey init).contains x = true := by
  induction ps with
  | nil =>
    intro init x h
    rcases h with h | h
    · cases h
    · exact h
  | cons p ps' ih =>
    intro init x h
    show (ps'.foldl addKey (addKey init p)).contains x = true
    rcases h with h | h
    · rcases List.mem_cons.mp h with h | h
      · exact ih _ _ (Or.inr (h ▸ contains_addKey init p))
      · exact ih _ _ (Or.inl h)
    · exact ih _ _ (Or.inr (contains_addKey_of_contains h))

/-- A piece of the cache file is a key of the loaded cache. -/
theorem contains_initCheckedLinkCache {contents : Str} {x : Str}
    (h : x ∈ splitNL contents) : (initCheckedLinkCache contents).contains x = true :=
  contains_foldl_addKey _ _ _ (Or.inl h)

/-- Flushing over an empty previous file leaves exactly the joined, sorted
key set (no residue is possible). -/
theorem writeCheckedLinkCache_empty (checked : List Str) :
    writeCheckedLinkCache checked (str "") = joinNL (sortStrings checked) := by
  unfold writeCheckedLinkCache overwriteFile
  show joinNL (sortStrings checked) ++ List.drop _ [] = _
  rw [List.drop_nil, List.append_nil]

/-- C7, as amended: when the fetch of a link fails, the orchestrator logs
the error, creates no archive entry, marks the LinkID checked, and the run
continues (`.ok`, main.go:89-95); and a subsequent run whose cache is loaded
from the key set flushed over an empty or absent prior cache file — a flush
that leaves no residue — skips the link without calling the fetcher again.
(The unconditional "a subsequent run does not retry" fails when a longer
stale prior cache file corrupts the flush; see the counterexample below.) -/
theorem claim_C7 (fetch : Str → Bool) (st : ArchiveState) (link id : Str)
    (hid : getLinkID link = some id)
    (hc : isLinkCheckedBefore st id = false)
    (hd : linkIDExists st id = false)
    (hf : fetch link = false)
    (hnl : ∀ x ∈ st.checkedLinks, ('\n' : Char) ∉ x) :
    ∃ st', processLink fetch st link = .ok st' ∧
      st'.entries = st.entries ∧
      st'.fetched = st.fetched ++ [link] ∧
      isLinkCheckedBefore st' id = true ∧
      ∀ (entries2 : List Str) (outDir2 : Bool),
        processLink fetch
          (ArchiveState.mk
            (initCheckedLinkCache (writeCheckedLinkCache st'.checkedLinks (str "")))
            entries2 outDir2 []) link =
        .ok (ArchiveState.mk
          (initCheckedLinkCache (writeCheckedLinkCache st'.checkedLinks (str "")))
          entries2 outDir2 []) := by
  refine ⟨setLinkChecked { st with fetched := st.fetched ++ [link] } id, ?_, rfl, rfl, ?_, ?_⟩
  · unfold processLink
    rw [computeLinkID_some hid]
    rw [if_neg (by simp [hc]), if_neg (by simp [hd]), if_neg (by simp [hf])]
  · exact contains_addKey _ id
  · intro entries2 outDir2
    set ck : List Str := (setLinkChecked { st with fetched := st.fetched ++ [link] } id).checkedLinks with hck
    have hmemck : id ∈ ck := contains_iff_mem_list.mp (contains_addKey _ id)
    have hnlck : ∀ p ∈ ck, ('\n' : Char) ∉ p := by
      intro p hp
      rcases mem_addKey hp with hp' | hp'
      · exact hnl p hp'
      · exact hp' ▸ getLinkID_no_newline hid
    have hpieces : id ∈ splitNL (writeCheckedLinkCache ck (str "")) := by
      rw [writeCheckedLinkCache_empty]
      rw [splitNL_joinNL (List.ne_nil_of_mem (mem_sortStrings.mpr hmemck))
        (fun p hp => hnlck p (mem_sortStrings.mp hp))]
      exact mem_sortStrings.mpr hmemck
    have hcontains := contains_initCheckedLinkCache hpieces
    unfold processLink
    rw [computeLinkID_some hid]
    have hicb : isLinkCheckedBefore
        (ArchiveState.mk (initCheckedLinkCache (writeCheckedLinkCache ck (str "")))
          entries2 outDir2 []) id = true := hcontains
    rw [if_pos hicb]

/-- Witness for C7: a failing fetch of `http://b.org/y` from a fresh state,
followed by a skip in a run loaded from the flushed cache. -/
theorem claim_C7_witness :
    ∃ st', processLink (fun _ => false) (ArchiveState.mk [] [] true [])
        (str "http://b.org/y") = .ok st' ∧
      st'.entries = (ArchiveState.mk [] [] true [] : ArchiveState).entries ∧
      st'.fetched = (ArchiveState.mk [] [] true [] : ArchiveState).fetched ++
        [str "http://b.org/y"] ∧
      isLinkCheckedBefore st' (str "b.org__y_a647393d") = true ∧
      ∀ (entries2 : List Str) (outDir2 : Bool),
        processLink (fun _ => false)
          (ArchiveState.mk
            (initCheckedLinkCache (writeCheckedLinkCache st'.checkedLinks (str "")))
            entries2 outDir2 []) (str "http://b.org/y") =
        .ok (ArchiveState.mk
          (initCheckedLinkCache (writeCheckedLinkCache st'.checkedLinks (str "")))
          entries2 outDir2 []) :=
  claim_C7 (fun _ => false) (ArchiveState.mk [] [] true [])
    (str "http://b.org/y") (str "b.org__y_a647393d")
    (by decide) (by decide) (by decide) (by decide) (by simp)

set_option maxRecDepth 10000 in
/-- C7 counterexample to the claim's unconditional final clause ("a
subsequent run does not retry that link"). Evaluating the embedded `Archive`:
run 1 over a prior cache file of duplicate entries (29 bytes) hits a failing
fetch of `http://zy.org/r`, creates no entry, and records the LinkID — yet
because `writeCheckedLinkCache` opens without `O_TRUNC` (main.go:206), its
21-byte flush leaves stale residue that corrupts the LinkID's cache line, and
the subsequent run fetches the same link again. -/
theorem claim_C7_cex :
    Archive (fun _ => false) [str " [a](http://zy.org/r)"]
        (str "aa\naa\naa\naa\naa\naa\naa\naa\naa\naa") [] true =
      .ok (ArchiveState.mk [str "aa", str "zy.org__r_cfc040c5"] [] true
            [str "http://zy.org/r"],
          str "aa\nzy.org__r_cfc040c5aa\naa\naa") ∧
    secondRunFetches (fun _ => false) [str " [a](http://zy.org/r)"]
        (str "aa\naa\naa\naa\naa\naa\naa\naa\naa\naa") =
      some [str "http://zy.org/r"] := by
  decide

/-- Unfolding characterization of `labelChar`. -/
theorem labelChar_iff (c : Char) : labelChar c = true ↔ c ≠ '[' ∧ c ≠ ']' := by
  simp [labelChar]

/-- Unfolding characterization of `urlChar`. -/
theorem urlChar_iff (c : Char) : urlChar c = true ↔ c ≠ '(' ∧ c ≠ ')' := by
  simp [urlChar]

/-- A verified list prefix decomposes the list. -/
theorem isPrefixOf_eq_append : ∀ {l s : Str}, l.isPrefixOf s = true →
    s = l ++ s.drop l.length := by
  intro l
  induction l with
  | nil => intro s _; simp
  | cons a as ih =>
    intro s h
    cases s with
    | nil => simp [List.isPrefixOf] at h
    | cons b bs =>
      simp only [List.isPrefixOf, Bool.and_eq_true, beq_iff_eq] at h
      obtain ⟨hab, h'⟩ := h
      rw [List.length_cons, List.drop_succ_cons, List.cons_append, hab]
      rw [← ih h']

/-- A list is a prefix of itself followed by anything. -/
theorem isPrefixOf_append_self : ∀ (l t : Str), l.isPrefixOf (l ++ t) = true := by
  intro l t
  induction l with
  | nil => cases t <;> simp [List.isPrefixOf]
  | cons a as ih => simp [List.isPrefixOf, ih]

/-- Inversion of `parseLabel`. -/
theorem parseLabel_eq_some {s lab r : Str} (h : parseLabel s = some (lab, r)) :
    s = lab ++ ']' :: r := by
  unfold parseLabel at h
  split at h
  next r' heq =>
    split at h
    · cases h
    · simp only [Option.some.injEq, Prod.mk.injEq] at h
      obtain ⟨h1, h2⟩ := h
      conv_lhs => rw [← List.takeWhile_append_dropWhile labelChar s]
      rw [heq, h1, h2]
  next => cases h

/-- Inversion of `parseScheme`. -/
theorem parseScheme_eq_some {s sch r : Str} (h : parseScheme s = some (sch, r)) :
    s = sch ++ r := by
  unfold parseScheme at h
  split at h
  next hpre =>
    simp only [Option.some.injEq, Prod.mk.injEq] at h
    obtain ⟨h1, h2⟩ := h
    rw [← h1, ← h2]
    exact isPrefixOf_eq_append hpre
  next =>
    split at h
    next hpre =>
      simp only [Option.some.injEq, Prod.mk.injEq] at h
      obtain ⟨h1, h2⟩ := h
      rw [← h1, ← h2]
      exact isPrefixOf_eq_append hpre
    next => cases h

/-- Inversion of `parseUrlRest`. -/
theorem parseUrlRest_eq_some {s u r : Str} (h : parseUrlRest s = some (u, r)) :
    s = u ++ ')' :: r := by
  unfold parseUrlRest at h
  split at h
  next r' heq =>
    split at h
    · cases h
    · simp only [Option.some.injEq, Prod.mk.injEq] at h
      obtain ⟨h1, h2⟩ := h
      conv_lhs => rw [← List.takeWhile_append_dropWhile urlChar s]
      rw [heq, h1, h2]
  next => cases h

/-- Inversion of `expectChar`. -/
theorem expectChar_eq_some {c : Char} {s r : Str} (h : expectChar c s = some r) :
    s = c :: r := by
  unfold expectChar at h
  split at h
  next d r' =>
    split at h
    next hd =>
      simp only [Option.some.injEq] at h
      rw [show d = c from by simpa using hd, h]
    next => cases h
  next => cases h

/-- Inversion of `matchAfterBracket`: the matched text decomposes into label,
delimiters, the captured URL and the remainder. -/
theorem matchAfterBracket_eq_some {rest u r : Str}
    (h : matchAfterBracket rest = some (u, r)) :
    ∃ lab, rest = lab ++ (']' :: '(' :: (u ++ ')' :: r)) := by
  unfold matchAfterBracket at h
  cases hp1 : parseLabel rest with
  | none => rw [hp1] at h; cases h
  | some p1 =>
    rw [hp1] at h
    obtain ⟨lab0, r1⟩ := p1
    dsimp only at h
    cases hp2 : expectChar '(' r1 with
    | none => rw [hp2] at h; cases h
    | some r2 =>
      rw [hp2] at h
      dsimp only at h
      cases hp3 : parseScheme r2 with
      | none => rw [hp3] at h; cases h
      | some p3 =>
        rw [hp3] at h
        obtain ⟨sch, r3⟩ := p3
        dsimp only at h
        cases hp4 : parseUrlRest r3 with
        | none => rw [hp4] at h; cases h
        | some p4 =>
          rw [hp4] at h
          obtain ⟨u0, r4⟩ := p4
          simp only [Option.some.injEq, Prod.mk.injEq] at h
          obtain ⟨h1, h2⟩ := h
          refine ⟨lab0, ?_⟩
          rw [parseLabel_eq_some hp1, expectChar_eq_some hp2,
            parseScheme_eq_some hp3, parseUrlRest_eq_some hp4, ← h1, ← h2]
          simp [List.append_assoc]

/-- Inversion of `matchMarkdownLink`: a match starts with a non-`!` character
immediately before the opening bracket. -/
theorem matchMarkdownLink_eq_some {s u r : Str}
    (h : matchMarkdownLink s = some (u, r)) :
    ∃ c lab, c ≠ '!' ∧ s = c :: '[' :: (lab ++ (']' :: '(' :: (u ++ ')' :: r))) := by
  cases s with
  | nil => cases h
  | cons c t =>
    cases t with
    | nil => cases h
    | cons d rest =>
      have hstep : matchMarkdownLink (c :: d :: rest) =
          if c == '!' then none
          else if d == '[' then matchAfterBracket rest else none := by
        rw [matchMarkdownLink]
      rw [hstep] at h
      by_cases hc : (c == '!') = true
      · rw [if_pos hc] at h; cases h
      · rw [if_neg hc] at h
        by_cases hd : (d == '[') = true
        · rw [if_pos hd] at h
          obtain ⟨lab, hlab⟩ := matchAfterBracket_eq_some h
          have hd' : d = '[' := by simpa using hd
          have hc' : c ≠ '!' := by simpa using hc
          exact ⟨c, lab, hc', by rw [hd', hlab]⟩
        · rw [if_neg hd] at h; cases h

/-- One unfolding step of the scan. -/
theorem findLinksFuel_succ_cons (n : Nat) (c : Char) (rest : Str) :
    findLinksFuel (n + 1) (c :: rest) =
      match matchMarkdownLink (c :: rest) with
      | some (u, r) => u :: findLinksFuel n r
      | none => findLinksFuel n rest := by
  rw [findLinksFuel]

/-- The scan of an empty text is empty at any fuel. -/
theorem findLinksFuel_nil (n : Nat) : findLinksFuel n [] = [] := by
  cases n <;> rfl

/-- Every URL the scan produces comes from a link occurrence whose opening
bracket is immediately preceded by a non-`!` character. -/
theorem mem_findLinksFuel : ∀ (n : Nat) (s url : Str), url ∈ findLinksFuel n s →
    ∃ p c lab r, c ≠ '!' ∧
      s = p ++ (c :: '[' :: (lab ++ (']' :: '(' :: (url ++ ')' :: r)))) := by
  intro n
  induction n with
  | zero => intro s url h; simp [findLinksFuel] at h
  | succ n ih =>
    intro s url h
    cases s with
    | nil => rw [findLinksFuel_nil] at h; cases h
    | cons c0 rest =>
      rw [findLinksFuel_succ_cons] at h
      cases hm : matchMarkdownLink (c0 :: rest) with
      | none =>
        rw [hm] at h
        obtain ⟨p, c, lab, r, hc, hs⟩ := ih rest url h
        exact ⟨c0 :: p, c, lab, r, hc, by rw [List.cons_append, ← hs]⟩
      | some ur =>
        rw [hm] at h
        obtain ⟨u, r0⟩ := ur
        dsimp only at h
        rw [List.mem_cons] at h
        rcases h with h | h
        · subst h
          obtain ⟨c, lab, hc, hs⟩ := matchMarkdownLink_eq_some hm
          exact ⟨[], c, lab, r0, hc, by rw [List.nil_append]; exact hs⟩
        · obtain ⟨p, c, lab, r, hc, hr⟩ := ih r0 url h
          obtain ⟨c1, lab1, _, hs1⟩ := matchMarkdownLink_eq_some hm
          refine ⟨c1 :: '[' :: (lab1 ++ (']' :: '(' :: (u ++ ')' :: p))), c, lab, r, hc, ?_⟩
          rw [hs1, hr]
          simp [List.append_assoc]

/-- C8: the Extractor never returns a URL by matching an image-style link:
every URL it returns occurs in the document as a markdown link whose opening
bracket is immediately preceded by a character that is not `!` (the regex's
leading `[^!]`, main.go:33). -/
theorem claim_C8 (doc url : Str) (h : url ∈ (parseLinksFromMarkdown doc).1) :
    ∃ p c lab r, c ≠ '!' ∧
      doc = p ++ (c :: '[' :: (lab ++ (']' :: '(' :: (url ++ ')' :: r)))) :=
  mem_findLinksFuel doc.length doc url h

/-- Witness for C8 on the document `" [a](http://x)"`. -/
theorem claim_C8_witness :
    ∃ p c lab r, c ≠ '!' ∧
      str " [a](http://x)" =
        p ++ (c :: '[' :: (lab ++ (']' :: '(' :: (str "http://x" ++ ')' :: r)))) :=
  claim_C8 (str " [a](http://x)") (str "http://x") (by decide)

/-- `takeWhile` stops exactly at the first failing character. -/
theorem takeWhile_append_cons {p : Char → Bool} {l : Str} (hl : ∀ x ∈ l, p x = true)
    {c : Char} (hc : p c = false) (r : Str) :
    (l ++ c :: r).takeWhile p = l := by
  induction l with
  | nil => simp [List.takeWhile_cons, hc]
  | cons a l' ih =>
    have ha := hl a (List.mem_cons_self a l')
    simp [List.takeWhile_cons, ha, ih (fun x hx => hl x (List.mem_cons_of_mem a hx))]

/-- `dropWhile` drops exactly the leading passing characters. -/
theorem dropWhile_append_cons {p : Char → Bool} {l : Str} (hl : ∀ x ∈ l, p x = true)
    {c : Char} (hc : p c = false) (r : Str) :
    (l ++ c :: r).dropWhile p = c :: r := by
  induction l with
  | nil => simp [List.dropWhile_cons, hc]
  | cons a l' ih =>
    have ha := hl a (List.mem_cons_self a l')
    simp [List.dropWhile_cons, ha, ih (fun x hx => hl x (List.mem_cons_of_mem a hx))]

/-- `parseLabel` on a well-formed label position. -/
theorem parseLabel_exact {lab : Str} (R : Str)
    (h2 : ∀ c ∈ lab, labelChar c = true) (h1 : lab ≠ []) :
    parseLabel (lab ++ (']' :: R)) = some (lab, R) := by
  unfold parseLabel
  rw [dropWhile_append_cons h2 (by decide), takeWhile_append_cons h2 (by decide)]
  split
  next r heq =>
    injection heq with _ h3
    rw [if_neg (fun hemp => h1 (List.isEmpty_iff.mp hemp)), h3]
  next hne => exact absurd rfl (hne R)

/-- `parseUrlRest` on a well-formed URL-tail position. -/
theorem parseUrlRest_exact {tail : Str} (R : Str)
    (h2 : ∀ c ∈ tail, urlChar c = true) (h1 : tail ≠ []) :
    parseUrlRest (tail ++ (')' :: R)) = some (tail, R) := by
  unfold parseUrlRest
  rw [dropWhile_append_cons h2 (by decide), takeWhile_append_cons h2 (by decide)]
  split
  next r heq =>
    injection heq with _ h3
    rw [if_neg (fun hemp => h1 (List.isEmpty_iff.mp hemp)), h3]
  next hne => exact absurd rfl (hne R)

/-- `expectChar` consumes the expected character. -/
theorem expectChar_cons (c : Char) (r : Str) : expectChar c (c :: r) = some r := by
  unfold expectChar
  simp

/-- `parseScheme` consumes exactly the scheme it is given. -/
theorem parseScheme_exact (ssl : Bool) (Y : Str) :
    parseScheme (schemeChars ssl ++ Y) = some (schemeChars ssl, Y) := by
  cases ssl with
  | true =>
    show parseScheme (httpsScheme ++ Y) = some (httpsScheme, Y)
    unfold parseScheme
    rw [if_pos (isPrefixOf_append_self _ _)]
    rw [show (8 : Nat) = httpsScheme.length from rfl, List.drop_left]
  | false =>
    show parseScheme (httpScheme ++ Y) = some (httpScheme, Y)
    unfold parseScheme
    rw [if_neg ?hneg, if_pos (isPrefixOf_append_self _ _)]
    case hneg =>
      simp [httpScheme, httpsScheme, List.isPrefixOf]
    rw [show (7 : Nat) = httpScheme.length from rfl, List.drop_left]

/-- The regex matches at a position holding a non-`!` character directly
before a complete, well-formed markdown link, and captures scheme + tail. -/
theorem matchMarkdownLink_at_link (c0 : Char) (hc0 : (c0 == '!') = false)
    (ssl : Bool) (lab tail : Str)
    (hlab1 : lab ≠ []) (hlab2 : ∀ c ∈ lab, labelChar c = true)
    (htail1 : tail ≠ []) (htail2 : ∀ c ∈ tail, urlChar c = true) :
    matchMarkdownLink
        (c0 :: '[' :: (lab ++ (']' :: '(' :: (schemeChars ssl ++ (tail ++ [')']))))) =
      some (schemeChars ssl ++ tail, []) := by
  rw [matchMarkdownLink]
  rw [if_neg (by simp [hc0]), if_pos (by decide)]
  unfold matchAfterBracket
  rw [parseLabel_exact _ hlab2 hlab1]
  dsimp only
  rw [expectChar_cons]
  dsimp only
  rw [parseScheme_exact]
  dsimp only
  rw [parseUrlRest_exact _ htail2 htail1]

/-- If a text contains no `[` at all, the scan finds nothing. -/
theorem findLinksFuel_eq_nil_of_no_bracket : ∀ (n : Nat) (s : Str),
    (∀ x ∈ s, x ≠ '[') → findLinksFuel n s = [] := by
  intro n
  induction n with
  | zero => intro s _; rfl
  | succ n ih =>
    intro s h
    cases s with
    | nil => rfl
    | cons c rest =>
      rw [findLinksFuel_succ_cons]
      cases hm : matchMarkdownLink (c :: rest) with
      | some ur =>
        obtain ⟨u, r⟩ := ur
        obtain ⟨c1, lab1, _, hs⟩ := matchMarkdownLink_eq_some hm
        injection hs with h1 h2
        have hbr : '[' ∈ rest := by rw [h2]; exact List.mem_cons_self _ _
        exact absurd rfl (h '[' (List.mem_cons_of_mem c hbr))
      | none => exact ih rest (fun x hx => h x (List.mem_cons_of_mem c hx))

/-- A document that starts with `[` and has no further `[` yields no links:
the regex needs one character before the opening bracket. -/
theorem findAllLinks_bracket_head (t : Str) (h : ∀ x ∈ t, x ≠ '[') :
    findAllLinks ('[' :: t) = [] := by
  show findLinksFuel (t.length + 1) ('[' :: t) = []
  rw [findLinksFuel_succ_cons]
  cases hm : matchMarkdownLink ('[' :: t) with
  | some ur =>
    obtain ⟨u, r⟩ := ur
    obtain ⟨c1, lab1, _, hs⟩ := matchMarkdownLink_eq_some hm
    injection hs with h1 h2
    have hbr : '[' ∈ t := by rw [h2]; exact List.mem_cons_self _ _
    exact absurd rfl (h '[' hbr)
  | none => exact findLinksFuel_eq_nil_of_no_bracket t.length t h

/-- C9: the Extractor requires one character before the opening bracket: a
well-formed link at the very start of the input is not matched, while the
same link preceded by a single space is matched and its URL returned
(the `[^!]` in main.go:33 consumes one character). -/
theorem claim_C9 (ssl : Bool) (lab tail : Str)
    (hlab1 : lab ≠ []) (hlab2 : ∀ c ∈ lab, labelChar c = true)
    (htail1 : tail ≠ []) (htail2 : ∀ c ∈ tail, urlChar c = true)
    (htail3 : '[' ∉ tail) :
    findAllLinks ('[' :: (lab ++ (']' :: '(' :: (schemeChars ssl ++ (tail ++ [')']))))) = [] ∧
    findAllLinks (' ' :: '[' :: (lab ++ (']' :: '(' :: (schemeChars ssl ++ (tail ++ [')']))))) =
      [schemeChars ssl ++ tail] := by
  constructor
  · apply findAllLinks_bracket_head
    intro x hx
    rcases List.mem_append.mp hx with hx | hx
    · exact ((labelChar_iff x).mp (hlab2 x hx)).1
    · rcases List.mem_cons.mp hx with hx | hx
      · subst hx; decide
      · rcases List.mem_cons.mp hx with hx | hx
        · subst hx; decide
        · rcases List.mem_append.mp hx with hx | hx
          · cases ssl with
            | true =>
              have hall : ∀ x ∈ httpsScheme, x ≠ '[' := by decide
              exact hall x hx
            | false =>
              have hall : ∀ x ∈ httpScheme, x ≠ '[' := by decide
              exact hall x hx
          · rcases List.mem_append.mp hx with hx | hx
            · exact fun heq => htail3 (heq ▸ hx)
            · rcases List.mem_cons.mp hx with hx | hx
              · subst hx; decide
              · cases hx
  · show findLinksFuel (_ + 1) (' ' :: _) = _
    rw [findLinksFuel_succ_cons,
      matchMarkdownLink_at_link ' ' (by decide) ssl lab tail hlab1 hlab2 htail1 htail2]
    dsimp only
    rw [findLinksFuel_nil]

/-- Witness for C9 on the spec's scenario `" [abc](https://example.com)"`. -/
theorem claim_C9_witness :
    findAllLinks
        ('[' :: (str "abc" ++ (']' :: '(' :: (schemeChars true ++ (str "example.com" ++ [')']))))) =
      [] ∧
    findAllLinks
        (' ' :: '[' :: (str "abc" ++ (']' :: '(' :: (schemeChars true ++ (str "example.com" ++ [')']))))) =
      [schemeChars true ++ str "example.com"] :=
  claim_C9 true (str "abc") (str "example.com")
    (by decide) (by decide) (by decide) (by decide) (by decide)
